import Mathlib

set_option maxRecDepth 100000

/-!
Verification development for the HumanitZ_SaveEditor pak-file codec
(`src/pak_reader.py` together with the shared helpers in `utils.py`).

The Python code is shallowly embedded: a byte stream is a `List Nat`
(each element one byte, little-endian multi-byte fields), a seekable
file is a `List Nat` together with `List.drop` for the seek, stateful
`BytesIO` reading becomes explicit suffix passing, and every read that
Python performs via `struct.unpack` (which raises on a short buffer)
becomes an `Option`-valued read, while plain `stream.read(n)` (which
silently returns fewer bytes at end of buffer) becomes a total read.
-/

/-- `stream.read n` on a `BytesIO`: returns up to `n` bytes, never fails. -/
def readAvail (n : Nat) (s : List Nat) : List Nat × List Nat :=
  (s.take n, s.drop n)

/-- A read that feeds `struct.unpack`: fails (raises `struct.error`) unless
`n` bytes are available. -/
def readExact (n : Nat) (s : List Nat) : Option (List Nat × List Nat) :=
  if n ≤ s.length then some (s.take n, s.drop n) else none

/-- Little-endian value of a byte list. -/
def leNat : List Nat → Nat
  | [] => 0
  | b :: bs => b + 256 * leNat bs

/-- Two's-complement reinterpretation of an unsigned `bits`-bit value,
as done by the signed `struct` format codes. -/
def toSigned (bits : Nat) (u : Nat) : Int :=
  if u < 2 ^ (bits - 1) then (u : Int) else (u : Int) - 2 ^ bits

/-- `struct.unpack` of an unsigned little-endian field of `n` bytes. -/
def readU (n : Nat) (s : List Nat) : Option (Nat × List Nat) :=
  (readExact n s).map fun p => (leNat p.1, p.2)

/-- `struct.unpack` of a signed little-endian field of `n` bytes. -/
def readI (n : Nat) (s : List Nat) : Option (Int × List Nat) :=
  (readExact n s).map fun p => (toSigned (8 * n) (leNat p.1), p.2)

/-- Little-endian encoding of a value into `n` bytes (used to build
concrete input buffers for the theorems; inverse of `leNat`). -/
def encLE : Nat → Nat → List Nat
  | 0, _ => []
  | n + 1, v => v % 256 :: encLE n (v / 256)

/-- Python `str.rstrip` of NUL characters: drop every trailing zero
code point. -/
def rstripZeros (l : List Nat) : List Nat :=
  (l.reverse.dropWhile fun b => b == 0).reverse

/-- Whether a byte is a UTF-8 continuation byte (`0x80`–`0xBF`). -/
def utf8Cont (c : Nat) : Bool :=
  0x80 ≤ c && c ≤ 0xBF

/-- Worker for `utf8DecodeReplace`, structurally recursive on a fuel
argument; every step consumes at least one input byte, so fuel equal to
the input length never runs out. -/
def utf8DecodeReplaceAux : Nat → List Nat → List Nat
  | 0, _ => []
  | _, [] => []
  | fuel + 1, b :: rest =>
    if b ≤ 0x7F then b :: utf8DecodeReplaceAux fuel rest
    else if b ≤ 0xC1 then 0xFFFD :: utf8DecodeReplaceAux fuel rest
    else if b ≤ 0xDF then
      match rest with
      | c :: r2 =>
        if utf8Cont c then ((b - 0xC0) * 0x40 + (c - 0x80)) :: utf8DecodeReplaceAux fuel r2
        else 0xFFFD :: utf8DecodeReplaceAux fuel rest
      | [] => [0xFFFD]
    else if b ≤ 0xEF then
      match rest with
      | c1 :: r2 =>
        if (if b = 0xE0 then 0xA0 else 0x80) ≤ c1 ∧ c1 ≤ (if b = 0xED then 0x9F else 0xBF) then
          match r2 with
          | c2 :: r3 =>
            if utf8Cont c2 then
              ((b - 0xE0) * 0x1000 + (c1 - 0x80) * 0x40 + (c2 - 0x80)) :: utf8DecodeReplaceAux fuel r3
            else 0xFFFD :: utf8DecodeReplaceAux fuel r2
          | [] => [0xFFFD]
        else 0xFFFD :: utf8DecodeReplaceAux fuel rest
      | [] => [0xFFFD]
    else if b ≤ 0xF4 then
      match rest with
      | c1 :: r2 =>
        if (if b = 0xF0 then 0x90 else 0x80) ≤ c1 ∧ c1 ≤ (if b = 0xF4 then 0x8F else 0xBF) then
          match r2 with
          | c2 :: r3 =>
            if utf8Cont c2 then
              match r3 with
              | c3 :: r4 =>
                if utf8Cont c3 then
                  ((b - 0xF0) * 0x40000 + (c1 - 0x80) * 0x1000 + (c2 - 0x80) * 0x40 + (c3 - 0x80)) ::
                    utf8DecodeReplaceAux fuel r4
                else 0xFFFD :: utf8DecodeReplaceAux fuel r3
              | [] => [0xFFFD]
            else 0xFFFD :: utf8DecodeReplaceAux fuel r2
          | [] => [0xFFFD]
        else 0xFFFD :: utf8DecodeReplaceAux fuel rest
      | [] => [0xFFFD]
    else 0xFFFD :: utf8DecodeReplaceAux fuel rest

/-- `bytes.decode` with UTF-8 and replacement of malformed input, as used
by `read_fstring` for positive lengths: well-formed sequences decode to
their code point, each maximal malformed subpart becomes one U+FFFD.
Total, it never raises. -/
def utf8DecodeReplace (l : List Nat) : List Nat :=
  utf8DecodeReplaceAux l.length l

/-- Split raw bytes into little-endian 16-bit units; fails (as Python's
strict `utf-16-le` decode does) on an odd number of bytes. -/
def utf16Units : List Nat → Option (List Nat)
  | [] => some []
  | [_] => none
  | a :: b :: r => (utf16Units r).map fun us => (a + 256 * b) :: us

/-- Combine UTF-16 units into code points, failing on unpaired
surrogates (strict decode, as `bytes.decode('utf-16-le')` with default
error handling). -/
def utf16Combine : List Nat → Option (List Nat)
  | [] => some []
  | u :: rest =>
    if u < 0xD800 ∨ 0xDFFF < u then (utf16Combine rest).map fun l => u :: l
    else if u ≤ 0xDBFF then
      match rest with
      | v :: rest2 =>
        if 0xDC00 ≤ v ∧ v ≤ 0xDFFF then
          (utf16Combine rest2).map fun l => (0x10000 + (u - 0xD800) * 0x400 + (v - 0xDC00)) :: l
        else none
      | [] => none
    else none

/-- Strict little-endian UTF-16 decode of raw bytes to code points. -/
def utf16leDecode (bs : List Nat) : Option (List Nat) :=
  (utf16Units bs).bind utf16Combine

/-- `utils.read_fstring`: reads a signed 32-bit length `L`; `L = 0` gives
the empty string; `L < 0` reads `2 * (-L)` bytes of UTF-16 text; `L > 0`
reads `L` bytes of UTF-8 text (with replacement); in both text cases all
trailing NUL characters are stripped (`rstrip`). Strings are modelled as
lists of code points. Returns the string and the remaining stream. -/
def read_fstring (s : List Nat) : Option (List Nat × List Nat) :=
  match readI 4 s with
  | none => none
  | some (length, s1) =>
    if length = 0 then some ([], s1)
    else if length < 0 then
      let count := (-length).toNat
      let (raw, s2) := readAvail (count * 2) s1
      match utf16leDecode raw with
      | none => none
      | some units => some (rstripZeros units, s2)
    else
      let (raw, s2) := readAvail length.toNat s1
      some (rstripZeros (utf8DecodeReplace raw), s2)

/-! ## Directory tree decoder (`read_pak_index`, FullDirectoryIndex loop) -/

/-- `PakDirectoryEntry` from `pak_reader.py`: a full path (directory name
concatenated with file name) and a signed byte offset into the
encoded-entries blob. -/
structure PakDirectoryEntry where
  path : List Nat
  encoded_offset : Int
deriving DecidableEq, Repr

/-- The inner per-file loop of the FullDirectoryIndex parse: reads
`FString FileName` then `int32 EncodedEntryOffset` for each of the
remaining files, appending an entry after both reads succeed.  Mirrors
the `try` body: a failing structural read aborts, keeping the entries
accumulated so far (second component `none` signals the exception). -/
def parseDirFiles (dname : List Nat) :
    Nat → List Nat → List PakDirectoryEntry → List PakDirectoryEntry × Option (List Nat)
  | 0, s, acc => (acc, some s)
  | n + 1, s, acc =>
    match read_fstring s with
    | none => (acc, none)
    | some (fname, s1) =>
      match readI 4 s1 with
      | none => (acc, none)
      | some (off, s2) => parseDirFiles dname n s2 (acc ++ [⟨dname ++ fname, off⟩])

/-- The outer per-directory loop: reads `FString DirectoryName` then
`int32 FileCount`, then the file loop.  A failure anywhere stops the
whole parse, keeping accumulated entries. -/
def parseDirs :
    Nat → List Nat → List PakDirectoryEntry → List PakDirectoryEntry × Option (List Nat)
  | 0, s, acc => (acc, some s)
  | n + 1, s, acc =>
    match read_fstring s with
    | none => (acc, none)
    | some (dname, s1) =>
      match readI 4 s1 with
      | none => (acc, none)
      | some (fcount, s2) =>
        match parseDirFiles dname fcount.toNat s2 acc with
        | (acc2, none) => (acc2, none)
        | (acc2, some s3) => parseDirs n s3 acc2

/-- The FullDirectoryIndex parsing loop of `read_pak_index`
(`pak_reader.py` lines 160–173): reads `int32 DirectoryCount` and then
the directory loop, all wrapped in `try ... except` so that a structural
read failure mid-stream returns every entry decoded so far instead of
raising.  Negative counts give zero loop iterations (`range` semantics). -/
def parse_full_directory (raw : List Nat) : List PakDirectoryEntry :=
  match readI 4 raw with
  | none => []
  | some (dc, s) => (parseDirs dc.toNat s []).1

/-! ## Entry codec (`decode_entry`) -/

/-- The dict returned by `decode_entry`.  `block_count` is `some` only in
the compact branch (the full-branch dict has no such key). -/
structure DecodedEntry where
  full_entry : Bool
  offset : Int
  size : Int
  uncompressed_size : Int
  compression : Nat
  encrypted : Bool
  block_size : Nat
  block_count : Option Nat
  entry_size : Nat
deriving DecidableEq, Repr

/-- The block-range loop of the full-entry branch: `block_count` pairs of
signed 64-bit `(blockStart, blockEnd)` values. -/
def readBlocks : Nat → List Nat → Option (List (Int × Int) × List Nat)
  | 0, s => some ([], s)
  | n + 1, s =>
    match readI 8 s with
    | none => none
    | some (bs, s1) =>
      match readI 8 s1 with
      | none => none
      | some (be, s2) =>
        match readBlocks n s2 with
        | none => none
        | some (l, s3) => some ((bs, be) :: l, s3)

/-- A 32-bit-or-64-bit field of the compact branch:
`struct.unpack('<I', s.read(4))` when the width flag is set, else
`struct.unpack('<q', s.read(8))`. -/
def readUI (w32 : Bool) (s : List Nat) : Option (Int × List Nat) :=
  if w32 then (readU 4 s).map fun p => ((p.1 : Int), p.2) else readI 8 s

/-- `decode_entry` of `pak_reader.py`, returning both the result dict and
the full-branch local `blocks` list (which the Python code computes and
then discards; the compact branch never builds a block list, yielding
`[]`).  `none` models any exception escaping `decode_entry` (caught by
the caller in `main`): a negative seek target or a short `struct` read. -/
def decode_entry_core (encoded_data : List Nat) (byte_offset : Int) :
    Option (DecodedEntry × List (Int × Int)) :=
  if byte_offset < 0 then none else
  match readU 4 (encoded_data.drop byte_offset.toNat) with
  | none => none
  | some (flags, s1) =>
    if flags &&& 0x3F = 0x3F then
      -- Full FPakEntry (not compact)
      match readI 8 s1 with
      | none => none
      | some (offset, s2) =>
      match readI 8 s2 with
      | none => none
      | some (size, s3) =>
      match readI 8 s3 with
      | none => none
      | some (uncomp_size, s4) =>
      match readU 4 s4 with
      | none => none
      | some (comp_method_real, s5) =>
      -- sha1 hash: plain 20-byte read, never fails
      match readU 1 (readAvail 20 s5).2 with
      | none => none
      | some (enc_flags, s7) =>
      match readU 4 s7 with
      | none => none
      | some (block_size, s8) =>
      if comp_method_real ≠ 0 then
        match readBlocks ((flags >>> 7) &&& 0x7FF) s8 with
        | none => none
        | some (blocks, _) =>
          some (⟨true, offset, size, uncomp_size, comp_method_real,
                 (enc_flags &&& 1) != 0, block_size, none,
                 4 + 8 + 8 + 8 + 4 + 20 + 1 + 4 + ((flags >>> 7) &&& 0x7FF) * 16⟩, blocks)
      else
        some (⟨true, offset, size, uncomp_size, comp_method_real,
               (enc_flags &&& 1) != 0, block_size, none,
               4 + 8 + 8 + 8 + 4 + 20 + 1 + 4⟩, [])
    else
      -- Compact entry: flag bit 6 selects per-file encryption, bits 7..17
      -- the block count, bits 29/30/31 the 32-bit width of size,
      -- uncompressed size and offset respectively.
      match readUI ((flags &&& (1 <<< 31)) != 0) s1 with
      | none => none
      | some (offset, s2) =>
      match readUI ((flags &&& (1 <<< 30)) != 0) s2 with
      | none => none
      | some (uncomp_size, s3) =>
      match (if flags &&& 0x3F ≠ 0 then readUI ((flags &&& (1 <<< 29)) != 0) s3
             else some (uncomp_size, s3)) with
      | none => none
      | some (size, s4) =>
      if flags &&& 0x3F ≠ 0 ∧ 0 < (flags >>> 7) &&& 0x7FF then
        match readU 4 s4 with
        | none => none
        | some (block_size, s5) =>
          some (⟨false, offset, size, uncomp_size, flags &&& 0x3F,
                 (flags &&& (1 <<< 6)) != 0, block_size, some ((flags >>> 7) &&& 0x7FF),
                 (encoded_data.drop byte_offset.toNat).length -
                   (readAvail (((flags >>> 7) &&& 0x7FF) * 8) s5).2.length⟩, [])
      else
        some (⟨false, offset, size, uncomp_size, flags &&& 0x3F,
               (flags &&& (1 <<< 6)) != 0, 0, some ((flags >>> 7) &&& 0x7FF),
               (encoded_data.drop byte_offset.toNat).length - s4.length⟩, [])

/-- `decode_entry` proper: the returned dict. -/
def decode_entry (encoded_data : List Nat) (byte_offset : Int) : Option DecodedEntry :=
  (decode_entry_core encoded_data byte_offset).map fun p => p.1

/-- The full-branch local `blocks` list of `decode_entry` (discarded by
the Python code before returning; empty for compact entries). -/
def decode_entry_blocks (encoded_data : List Nat) (byte_offset : Int) :
    Option (List (Int × Int)) :=
  (decode_entry_core encoded_data byte_offset).map fun p => p.2

/-! ## Footer reader (`read_pak_info`) -/

/-- `PakInfo` from `pak_reader.py`.  Method names are byte lists up to the
first NUL, ASCII-decoded with replacement (non-ASCII bytes become
U+FFFD). -/
structure PakInfo where
  magic : Nat
  version : Nat
  index_offset : Nat
  index_size : Nat
  index_hash : List Nat
  encrypted : Bool
  enc_key_guid : List Nat
  compression_methods : List (List Nat)
deriving DecidableEq, Repr

/-- `bytes.decode('ascii', errors='replace')`. -/
def asciiReplace (bs : List Nat) : List Nat :=
  bs.map fun b => if b ≤ 0x7F then b else 0xFFFD

/-- The compression-method-name loop of `read_pak_info`: `comp_count`
fixed-width 32-byte records, each truncated at its first NUL.  Plain
`f.read` never raises, so the loop is total. -/
def readCompMethods : Nat → List Nat → List (List Nat) × List Nat
  | 0, s => ([], s)
  | n + 1, s =>
    let (m, s1) := readAvail 32 s
    let name := asciiReplace (m.takeWhile fun b => b != 0)
    let (ms, s2) := readCompMethods n s1
    (name :: ms, s2)

/-- `config.PAK_INFO_OFFSET`: the footer is read starting at
`file_size - 204`. -/
def PAK_INFO_OFFSET : Nat := 204

/-- `read_pak_info` of `pak_reader.py`.  The file handle and its size are
modelled by the full container byte list (`main` passes
`file_size = f.tell()` after seeking to the end).  A container shorter
than the footer offset makes the initial seek negative, which raises;
all later fixed-field reads sit inside the 204 trailing bytes.  Note the
function parses `magic` as data and never validates it. -/
def read_pak_info (data : List Nat) : Option PakInfo :=
  if data.length < PAK_INFO_OFFSET then none else
  match readU 4 (data.drop (data.length - PAK_INFO_OFFSET)) with
  | none => none
  | some (magic, s1) =>
  match readU 4 s1 with
  | none => none
  | some (version, s2) =>
  match readU 8 s2 with
  | none => none
  | some (index_offset, s3) =>
  match readU 8 s3 with
  | none => none
  | some (index_size, s4) =>
  let (index_hash, s5) := readAvail 20 s4
  match readU 1 s5 with
  | none => none
  | some (encByte, s6) =>
  let (enc_key_guid, s7) := readAvail 16 s6
  match readU 4 s7 with
  | none => none
  | some (comp_count, s8) =>
  let (methods, _) := readCompMethods comp_count s8
  some ⟨magic, version, index_offset, index_size, index_hash, encByte != 0,
        enc_key_guid, methods⟩

/-! ## Content extractor (`extract_file` and the validation in `main`) -/

/-- Errors escaping `extract_file`: the explicit `ValueError` for
compressed entries, and I/O-level errors (negative seek target or a
negative read length) for degenerate decoded fields. -/
inductive ExtractErr where
  | unsupported
  | ioError
deriving DecidableEq, Repr

/-- `utils.aes_decrypt_ecb`: zero-pad to a 16-byte boundary, apply the
block cipher, truncate back to the input length.  The AES-256-ECB core
itself is abstracted as the function argument `cipherDec`. -/
def aes_decrypt_ecb (cipherDec : List Nat → List Nat) (data : List Nat) : List Nat :=
  let padded_size := (data.length + 15) / 16 * 16
  (cipherDec (data ++ List.replicate (padded_size - data.length) 0)).take data.length

/-- `pak_handle.read(n)` for a signed count on a buffered file object:
`-1` reads to the end, a nonnegative count reads up to that many bytes,
any other negative count raises. -/
def fileRead (n : Int) (rest : List Nat) : Option (List Nat) :=
  if n = -1 then some rest
  else if 0 ≤ n then some (rest.take n.toNat)
  else none

/-- `extract_file` of `pak_reader.py`: raises `ValueError` whenever the
decoded `compression` field is neither `0` nor `0x3F`; otherwise seeks to
the decoded offset, reads the on-disk size and AES-decrypts the buffer
when the per-file encrypted flag is set.  No decompression exists. -/
def extract_file (data : List Nat) (e : DecodedEntry)
    (cipherDec : List Nat → List Nat) : Except ExtractErr (List Nat) :=
  if e.compression ≠ 0 ∧ e.compression ≠ 0x3F then .error .unsupported
  else if e.offset < 0 then .error .ioError
  else
    match fileRead e.size (data.drop e.offset.toNat) with
    | none => .error .ioError
    | some raw => .ok (if e.encrypted then aes_decrypt_ecb cipherDec raw else raw)

/-- Per-entry outcomes of the extraction step in `main`. -/
inductive PipelineErr where
  | corruptEntry
  | unsupported
  | ioError
deriving DecidableEq, Repr

/-- The per-entry extraction step of `main` (`pak_reader.py` lines
358–370): validate `0 < offset < file_size` and
`0 < size < 100 * 1024 * 1024` on the decoded entry, skipping the entry
(`CorruptEntryError` in the spec's taxonomy) on violation, and only then
read the body via `extract_file`. -/
def extract_validated (data : List Nat) (e : DecodedEntry)
    (cipherDec : List Nat → List Nat) : Except PipelineErr (List Nat) :=
  if 0 < e.offset ∧ e.offset < (data.length : Int) ∧
     0 < e.size ∧ e.size < 100 * 1024 * 1024 then
    match extract_file data e cipherDec with
    | .error .unsupported => .error .unsupported
    | .error .ioError => .error .ioError
    | .ok d => .ok d
  else .error .corruptEntry

/-! ## Spec-side constructions

Encoders used to build the containers, index blocks and entry records
the theorems quantify over.  These follow the on-disk layouts stated in
the spec (sections 4.3–4.5, 6); the decoders above never depend on
them. -/

/-- Encode an `FString` with single-byte content and one trailing NUL:
`int32` length `content.length + 1`, then the content bytes, then `0`. -/
def encFString (content : List Nat) : List Nat :=
  encLE 4 (content.length + 1) ++ content ++ [0]

/-- Encode a run of directory-index file records: each file is an
`FString` name followed by an `int32` encoded-entry offset. -/
def encDirFiles (files : List (List Nat × Nat)) : List Nat :=
  (files.map fun p => encFString p.1 ++ encLE 4 p.2).flatten

/-- UTF-16LE byte serialization of a list of 16-bit units. -/
def utf16leBytes (units : List Nat) : List Nat :=
  (units.map fun u => [u % 256, u / 256]).flatten

/-- A logical file's metadata, the common content both entry encodings
can represent: body offset, on-disk size, uncompressed size,
compression-method index, per-file-encrypted flag, per-block chunk size
and block ranges. -/
structure LogicalFile where
  offset : Nat
  size : Nat
  uncomp : Nat
  comp : Nat
  encrypted : Bool
  block_size : Nat
  blocks : List (Nat × Nat)
deriving DecidableEq, Repr

/-- Serialize a logical file as a full-form `FPakEntry` record: flags
carry the `0x3F` sentinel in the low six bits and the block count in
bits 7..17; then the fixed 8/8/8/4/20/1/4-byte layout and the 16-byte
block-range pairs. -/
def encodeFullEntry (lf : LogicalFile) : List Nat :=
  encLE 4 (0x3F + 128 * lf.blocks.length) ++
  encLE 8 lf.offset ++ encLE 8 lf.size ++ encLE 8 lf.uncomp ++
  encLE 4 lf.comp ++ List.replicate 20 0 ++
  [if lf.encrypted then 1 else 0] ++ encLE 4 lf.block_size ++
  (lf.blocks.map fun p => encLE 8 p.1 ++ encLE 8 p.2).flatten

/-- Serialize the same logical file as a compact record, choosing the
64-bit width for every flag-selected field (bits 29/30/31 clear): flags
carry the method index, the encrypted bit and the block count; then
offset, uncompressed size, and — only for a non-zero method — the
on-disk size plus, when blocks exist, the 32-bit chunk size and the raw
8-byte block pair area (whose bytes the decoder skips). -/
def encodeCompactEntry (lf : LogicalFile) : List Nat :=
  encLE 4 (lf.comp + (if lf.encrypted then 64 else 0) + 128 * lf.blocks.length) ++
  encLE 8 lf.offset ++ encLE 8 lf.uncomp ++
  (if lf.comp ≠ 0 then
    encLE 8 lf.size ++
    (if lf.blocks.length ≠ 0 then
      encLE 4 lf.block_size ++ List.replicate (lf.blocks.length * 8) 0
     else [])
   else [])

/-- The normalized logical view shared by the two record encodings: the
fields common to both returned dicts (everything except the branch tag,
the byte count consumed, and the compact-only `block_count` key). -/
structure EntryView where
  offset : Int
  size : Int
  uncompressed_size : Int
  compression : Nat
  encrypted : Bool
  block_size : Nat
deriving DecidableEq, Repr

/-- Project a decoded entry to its normalized view. -/
def DecodedEntry.view (e : DecodedEntry) : EntryView :=
  ⟨e.offset, e.size, e.uncompressed_size, e.compression, e.encrypted, e.block_size⟩

/-- The view a logical file should decode to under either encoding. -/
def LogicalFile.view (lf : LogicalFile) : EntryView :=
  ⟨lf.offset, lf.size, lf.uncomp, lf.comp, lf.encrypted, lf.block_size⟩

/-! ## Evaluation lemmas for the stream primitives -/

theorem readExact_of_le {n : Nat} {s : List Nat} (h : n ≤ s.length) :
    readExact n s = some (s.take n, s.drop n) := by
  simp [readExact, h]

theorem readExact_append {n : Nat} {xs r : List Nat} (h : xs.length = n) :
    readExact n (xs ++ r) = some (xs, r) := by
  subst h
  simp [readExact]

theorem readAvail_append {n : Nat} {xs r : List Nat} (h : xs.length = n) :
    readAvail n (xs ++ r) = (xs, r) := by
  subst h
  simp [readAvail]

theorem encLE_length (n v : Nat) : (encLE n v).length = n := by
  induction n generalizing v with
  | zero => rfl
  | succ k ih => simp [encLE, ih]

theorem leNat_encLE (n v : Nat) : leNat (encLE n v) = v % 2 ^ (8 * n) := by
  induction n generalizing v with
  | zero => simp [encLE, leNat, Nat.mod_one]
  | succ k ih =>
    simp only [encLE, leNat, ih]
    rw [Nat.mul_succ, Nat.pow_add, Nat.mul_comm (2 ^ (8 * k)) (2 ^ 8),
        Nat.mod_mul]

theorem leNat_encLE_of_lt {n v : Nat} (h : v < 2 ^ (8 * n)) :
    leNat (encLE n v) = v := by
  rw [leNat_encLE, Nat.mod_eq_of_lt h]

theorem toSigned_of_lt {bits u : Nat} (h : u < 2 ^ (bits - 1)) :
    toSigned bits u = (u : Int) := by
  simp [toSigned, h]

theorem readU_append {n : Nat} {xs r : List Nat} (h : xs.length = n) :
    readU n (xs ++ r) = some (leNat xs, r) := by
  simp [readU, readExact_append h]

theorem readI_append {n : Nat} {xs r : List Nat} (h : xs.length = n) :
    readI n (xs ++ r) = some (toSigned (8 * n) (leNat xs), r) := by
  simp [readI, readExact_append h]

theorem readU_encLE {n v : Nat} {r : List Nat} (h : v < 2 ^ (8 * n)) :
    readU n (encLE n v ++ r) = some (v, r) := by
  rw [readU_append (encLE_length n v), leNat_encLE_of_lt h]

theorem readI_encLE {n v : Nat} {r : List Nat} (h : v < 2 ^ (8 * n - 1)) :
    readI n (encLE n v ++ r) = some ((v : Int), r) := by
  rw [readI_append (encLE_length n v),
      leNat_encLE_of_lt (lt_of_lt_of_le h (Nat.pow_le_pow_right (by omega) (by omega))),
      toSigned_of_lt h]

theorem readU_of_le {n : Nat} {s : List Nat} (h : n ≤ s.length) :
    readU n s = some (leNat (s.take n), s.drop n) := by
  simp [readU, readExact_of_le h]

theorem readI_of_le {n : Nat} {s : List Nat} (h : n ≤ s.length) :
    readI n s = some (toSigned (8 * n) (leNat (s.take n)), s.drop n) := by
  simp [readI, readExact_of_le h]

theorem readU_eq_some {n : Nat} {s : List Nat} {v : Nat} {r : List Nat}
    (h : readU n s = some (v, r)) : v = leNat (s.take n) ∧ r = s.drop n := by
  unfold readU readExact at h
  split at h
  · simp at h
    exact ⟨h.1.symm, h.2.symm⟩
  · simp at h

/-- C1 (corrected form): the footer reader performs no magic validation
at all.  For every container ending in a structurally complete footer —
any 4 magic bytes, any version, index offset, index length, hash,
encrypted flag and key id, with an empty compression-method table and
its 139 padding bytes filling the fixed 204-byte footer window —
`read_pak_info` succeeds whatever the magic bytes hold, and returns the
magic and the index offset verbatim as data. -/
theorem read_pak_info_no_magic_validation (pre magicB versionB ioffB iszB hash guid pad : List Nat)
    (eb : Nat)
    (hm : magicB.length = 4) (hv : versionB.length = 4)
    (hio : ioffB.length = 8) (his : iszB.length = 8)
    (hh : hash.length = 20) (hg : guid.length = 16) (hp : pad.length = 139) :
    read_pak_info
      (pre ++ magicB ++ versionB ++ ioffB ++ iszB ++ hash ++ [eb] ++ guid ++
        [0, 0, 0, 0] ++ pad) =
      some ⟨leNat magicB, leNat versionB, leNat ioffB, leNat iszB, hash,
            eb != 0, guid, []⟩ := by
  have hlen : (pre ++ magicB ++ versionB ++ ioffB ++ iszB ++ hash ++ [eb] ++ guid ++
      [0, 0, 0, 0] ++ pad).length = pre.length + 204 := by
    simp [hm, hv, hio, his, hh, hg, hp]
  unfold read_pak_info PAK_INFO_OFFSET
  rw [if_neg (by omega)]
  have hdrop : (pre ++ magicB ++ versionB ++ ioffB ++ iszB ++ hash ++ [eb] ++ guid ++
      [0, 0, 0, 0] ++ pad).drop
        ((pre ++ magicB ++ versionB ++ ioffB ++ iszB ++ hash ++ [eb] ++ guid ++
          [0, 0, 0, 0] ++ pad).length - 204) =
      magicB ++ (versionB ++ (ioffB ++ (iszB ++ (hash ++ ([eb] ++ (guid ++
        ([0, 0, 0, 0] ++ pad))))))) := by
    rw [hlen]
    simp only [List.append_assoc, Nat.add_sub_cancel]
    exact List.drop_left pre _
  rw [hdrop]
  simp only [readU_append hm, readU_append hv, readU_append hio, readU_append his,
    readAvail_append hh, readU_append (show ([eb] : List Nat).length = 1 from rfl),
    readAvail_append hg,
    readU_append (show ([0, 0, 0, 0] : List Nat).length = 4 from rfl)]
  simp [leNat, readCompMethods]

/-- Concrete footer whose magic `0x12345678` differs from any expected
constant (the spec names `0xABCD1234`): 204 bytes, magic first. -/
def badMagicFooter : List Nat :=
  encLE 4 0x12345678 ++ List.replicate 200 0

/-- C1 counterexample: a container whose footer magic is `0x12345678`
(not the expected constant) is parsed successfully by `read_pak_info` —
no `FormatError`, and the parsed info (index offset included) is
returned. -/
theorem read_pak_info_bad_magic_accepted :
    (read_pak_info badMagicFooter).map PakInfo.magic = some 0x12345678 ∧
    (read_pak_info badMagicFooter).isSome = true ∧
    (0x12345678 : Nat) ≠ 0xABCD1234 := by
  refine ⟨by decide, by decide, by decide⟩

/-- C1 witness: the no-validation theorem applied to a concrete footer
whose magic bytes spell `0x12345678`. -/
theorem read_pak_info_no_magic_validation_witness :
    read_pak_info
      ([] ++ [0x78, 0x56, 0x34, 0x12] ++ List.replicate 4 0 ++ List.replicate 8 0 ++
        List.replicate 8 0 ++ List.replicate 20 0 ++ [0] ++ List.replicate 16 0 ++
        [0, 0, 0, 0] ++ List.replicate 139 0) =
      some ⟨leNat [0x78, 0x56, 0x34, 0x12], leNat (List.replicate 4 0),
            leNat (List.replicate 8 0), leNat (List.replicate 8 0),
            List.replicate 20 0, (0 : Nat) != 0, List.replicate 16 0, []⟩ :=
  read_pak_info_no_magic_validation [] [0x78, 0x56, 0x34, 0x12]
    (List.replicate 4 0) (List.replicate 8 0) (List.replicate 8 0)
    (List.replicate 20 0) (List.replicate 16 0) (List.replicate 139 0) 0
    rfl rfl rfl rfl rfl rfl rfl

/-- C2 (corrected form): the extractor has no decompression path at all.
For every decoded entry whose compression field is neither `0` nor the
`0x3F` sentinel, `extract_file` fails with the unsupported-compression
error — regardless of the container bytes, of the cipher, and of
whatever the footer's compression-method name table says the index
resolves to (the table is not even an input of `extract_file`). -/
theorem extract_file_unsupported_any_nonstore (data : List Nat)
    (e : DecodedEntry) (cipherDec : List Nat → List Nat)
    (h0 : e.compression ≠ 0) (h1 : e.compression ≠ 0x3F) :
    extract_file data e cipherDec = .error .unsupported := by
  unfold extract_file
  rw [if_pos ⟨h0, h1⟩]

/-- A decoded entry whose compression-method index is `1` — the index a
real pak's method table resolves to its one DEFLATE-style codec. -/
def compressedEntry : DecodedEntry :=
  ⟨false, 0, 1, 1, 1, false, 0, some 0, 20⟩

/-- C2 counterexample: on an entry with compression index `1`,
`extract_file` raises the unsupported-compression error instead of
decompressing — the claim's "when the method resolves to the supported
codec, extract returns the decompressed content" is false, because the
result is an error independent of any method table. -/
theorem extract_file_rejects_method_one :
    extract_file [0, 0, 0, 0] compressedEntry id = .error .unsupported ∧
    compressedEntry.compression = 1 ∧ (1 : Nat) ≠ 0 ∧ (1 : Nat) ≠ 0x3F := by
  refine ⟨rfl, rfl, by decide, by decide⟩

/-- C2 witness: the corrected theorem applied at the concrete compressed
entry. -/
theorem extract_file_unsupported_any_nonstore_witness :
    extract_file [0, 0, 0, 0] compressedEntry id = .error .unsupported :=
  extract_file_unsupported_any_nonstore [0, 0, 0, 0] compressedEntry id
    (by decide) (by decide)

/-- C6: the per-entry extraction step of `main` validates
`0 < offset < containerSize` and `0 < onDiskSize < 100 MiB` on the
decoded entry before any body read; every entry violating either bound
is rejected as corrupt, for every container content and cipher — in
particular no read of the body happens, since the outcome is the same
for all containers. -/
theorem extract_validated_rejects_bad_bounds (data : List Nat)
    (e : DecodedEntry) (cipherDec : List Nat → List Nat)
    (h : ¬(0 < e.offset ∧ e.offset < (data.length : Int) ∧
           0 < e.size ∧ e.size < 100 * 1024 * 1024)) :
    extract_validated data e cipherDec = .error .corruptEntry := by
  unfold extract_validated
  rw [if_neg h]

/-- An entry whose body offset equals the container size (boundary case
of the claim). -/
def offsetAtEndEntry : DecodedEntry :=
  ⟨false, 1, 1, 1, 0, false, 0, some 0, 20⟩

/-- C6 witness: a one-byte container with a decoded offset equal to the
container size is rejected as corrupt. -/
theorem extract_validated_rejects_bad_bounds_witness :
    extract_validated [7] offsetAtEndEntry id = .error .corruptEntry :=
  extract_validated_rejects_bad_bounds [7] offsetAtEndEntry id (by decide)

/-- C10: for decoded entries with nonnegative offset and size (as the
pipeline's validation guarantees), `extract_file` fails exactly when the
raw compression field is neither `0` nor `0x3F`; an entry carrying the
`0x3F` sentinel as its compression value is treated as stored content:
extracted by a raw read of `size` bytes at `offset`, with per-file AES
decryption exactly when the encrypted flag is set. -/
theorem extract_file_guard_iff (data : List Nat) (e : DecodedEntry)
    (cipherDec : List Nat → List Nat)
    (hoff : 0 ≤ e.offset) (hsz : 0 ≤ e.size) :
    ((∃ err, extract_file data e cipherDec = .error err) ↔
      (e.compression ≠ 0 ∧ e.compression ≠ 0x3F)) ∧
    (e.compression = 0x3F →
      extract_file data e cipherDec =
        .ok (if e.encrypted then
               aes_decrypt_ecb cipherDec ((data.drop e.offset.toNat).take e.size.toNat)
             else (data.drop e.offset.toNat).take e.size.toNat)) := by
  unfold extract_file
  by_cases hg : e.compression ≠ 0 ∧ e.compression ≠ 0x3F
  · rw [if_pos hg]
    exact ⟨⟨fun _ => hg, fun _ => ⟨.unsupported, rfl⟩⟩, fun h37 => absurd h37 hg.2⟩
  · rw [if_neg hg]
    rw [if_neg (by omega)]
    have hread : fileRead e.size (data.drop e.offset.toNat) =
        some ((data.drop e.offset.toNat).take e.size.toNat) := by
      unfold fileRead
      rw [if_neg (by omega), if_pos hsz]
    rw [hread]
    constructor
    · constructor
      · rintro ⟨err, herr⟩
        simp at herr
      · intro hc
        exact absurd hc hg
    · intro _
      rfl

/-- A stored entry carrying the `0x3F` sentinel as its raw compression
value. -/
def sentinelEntry : DecodedEntry :=
  ⟨true, 0, 2, 2, 0x3F, false, 0, none, 57⟩

/-- C10 witness: the guard biconditional applied to a concrete sentinel
entry over a three-byte container. -/
theorem extract_file_guard_iff_witness :
    ((∃ err, extract_file [1, 2, 3] sentinelEntry id = .error err) ↔
      (sentinelEntry.compression ≠ 0 ∧ sentinelEntry.compression ≠ 0x3F)) ∧
    (sentinelEntry.compression = 0x3F →
      extract_file [1, 2, 3] sentinelEntry id =
        .ok (if sentinelEntry.encrypted then
               aes_decrypt_ecb id (([1, 2, 3].drop sentinelEntry.offset.toNat).take sentinelEntry.size.toNat)
             else ([1, 2, 3].drop sentinelEntry.offset.toNat).take sentinelEntry.size.toNat)) :=
  extract_file_guard_iff [1, 2, 3] sentinelEntry id (by decide) (by decide)

theorem readBlocks_length {n : Nat} {s : List Nat} {l : List (Int × Int)} {r : List Nat}
    (h : readBlocks n s = some (l, r)) : l.length = n := by
  induction n generalizing s l r with
  | zero =>
    unfold readBlocks at h
    simp at h
    simp [h.1]
  | succ k ih =>
    unfold readBlocks at h
    split at h
    · simp at h
    · split at h
      · simp at h
      · split at h
        · simp at h
        · rename_i l3 s3 hrec
          simp at h
          obtain ⟨h1, _⟩ := h
          subst h1
          simp [ih hrec]

/-- A full-form record whose resolved method is 0 (store) but whose two
size fields differ: on-disk size 1, uncompressed size 2. -/
def fullStoreMismatchBuf : List Nat :=
  encLE 4 0x3F ++ encLE 8 0 ++ encLE 8 1 ++ encLE 8 2 ++ encLE 4 0 ++
  List.replicate 20 0 ++ [0] ++ encLE 4 0

/-- C4 counterexample: a full-form entry with compression method 0
decodes successfully with `onDiskSize = 1 ≠ 2 = uncompressedSize` — the
decoder reads the two sizes as independent fields and enforces no
equality in the full branch. -/
theorem decode_entry_full_store_size_mismatch :
    (decode_entry fullStoreMismatchBuf 0).map
        (fun e => (e.compression, e.size, e.uncompressed_size)) =
      some (0, 1, 2) ∧ (1 : Int) ≠ 2 := by
  exact ⟨by decide, by decide⟩

/-- C4 (corrected form): the store invariant holds only as far as the
code enforces it.  For every successfully decoded entry with resolved
compression method 0: a compact-form entry has its on-disk size defined
to equal the uncompressed size, and a full-form entry decodes an empty
block list — but a full-form entry's two size fields are independent and
need not be equal (see the counterexample). -/
theorem decode_entry_store_amended (data : List Nat) (off : Int)
    (e : DecodedEntry) (bl : List (Int × Int))
    (h : decode_entry_core data off = some (e, bl))
    (hc : e.compression = 0) :
    (e.full_entry = false → e.size = e.uncompressed_size) ∧
    (e.full_entry = true → bl = []) := by
  constructor
  · intro hfull
    unfold decode_entry_core at h
    repeat' split at h
    all_goals try simp_all
    all_goals (obtain ⟨h1, h2⟩ := h; subst h1; simp_all)
  · intro hfull
    unfold decode_entry_core at h
    repeat' split at h
    all_goals try simp_all
    all_goals (obtain ⟨h1, h2⟩ := h; subst h1; simp_all)

/-- The entry decoded from a minimal compact store record (method 0,
64-bit widths, offset 5, uncompressed size 9). -/
def storeCompactEntry : DecodedEntry :=
  ⟨false, 5, 9, 9, 0, false, 0, some 0, 20⟩

/-- C4 witness: the amended store theorem applied to a concrete compact
store record. -/
theorem decode_entry_store_amended_witness :
    (storeCompactEntry.full_entry = false →
      storeCompactEntry.size = storeCompactEntry.uncompressed_size) ∧
    (storeCompactEntry.full_entry = true → ([] : List (Int × Int)) = []) :=
  decode_entry_store_amended (encLE 4 0 ++ encLE 8 5 ++ encLE 8 9) 0
    storeCompactEntry [] (by decide) (by decide)

/-- A full-form record with a non-zero resolved method (1) whose flags
carry a zero block count in bits 7..17: uncompressed size 4, no block
ranges follow. -/
def fullCompressedNoBlocksBuf : List Nat :=
  encLE 4 0x3F ++ encLE 8 0 ++ encLE 8 4 ++ encLE 8 4 ++ encLE 4 1 ++
  List.replicate 20 0 ++ [0] ++ encLE 4 65536

/-- C5 counterexample: a decoded full-form entry with non-zero
compression method whose block list is empty (block count 0 in the flags
word), so the block list is not non-empty and the sum of per-block sizes
(0 over an empty list) cannot equal the uncompressed size 4. -/
theorem decode_entry_nonzero_method_empty_blocks :
    decode_entry_blocks fullCompressedNoBlocksBuf 0 = some [] ∧
    (decode_entry fullCompressedNoBlocksBuf 0).map (fun e => e.compression) = some 1 ∧
    (decode_entry fullCompressedNoBlocksBuf 0).map (fun e => e.uncompressed_size) = some 4 ∧
    (4 : Int) ≠ 0 := by
  refine ⟨by decide, by decide, by decide, by decide⟩

/-- C5 (corrected form): what the decoder actually guarantees about
blocks.  For every successfully decoded full-form entry with non-zero
resolved method, the decoded block list has exactly
`(flags >>> 7) &&& 0x7FF` elements — the 11-bit count of flag bits
7..17, which may be zero — and nothing relates block contents to the
uncompressed size (no sum is computed or checked anywhere). -/
theorem decode_entry_blocklen_amended (data : List Nat) (off : Int)
    (e : DecodedEntry) (bl : List (Int × Int))
    (h : decode_entry_core data off = some (e, bl))
    (hfull : e.full_entry = true) (hc : e.compression ≠ 0) :
    bl.length = (leNat ((data.drop off.toNat).take 4) >>> 7) &&& 0x7FF := by
  unfold decode_entry_core at h
  repeat' split at h
  all_goals try simp_all
  all_goals
    (obtain ⟨h1, h2⟩ := h
     subst h1
     try subst h2
     first
       | exact absurd rfl hc
       | exact Bool.noConfusion hfull
       | (have hfl := (readU_eq_some (n := 4) (s := List.drop off.toNat data)
            (by assumption)).1
          try subst hfl
          exact readBlocks_length (by assumption)))

/-- C5 witness: a full-form compressed record with exactly one block
range; the decoded block list length (1) matches bits 7..17 of its flags
word. -/
theorem decode_entry_blocklen_amended_witness :
    ([((0 : Int), (4 : Int))] : List (Int × Int)).length =
      (leNat (((encLE 4 (0x3F + 128) ++ encLE 8 10 ++ encLE 8 4 ++ encLE 8 8 ++
        encLE 4 1 ++ List.replicate 20 0 ++ [0] ++ encLE 4 65536 ++
        encLE 8 0 ++ encLE 8 4).drop (0 : Int).toNat).take 4) >>> 7) &&& 0x7FF :=
  decode_entry_blocklen_amended
    (encLE 4 (0x3F + 128) ++ encLE 8 10 ++ encLE 8 4 ++ encLE 8 8 ++
      encLE 4 1 ++ List.replicate 20 0 ++ [0] ++ encLE 4 65536 ++
      encLE 8 0 ++ encLE 8 4) 0
    ⟨true, 10, 4, 8, 1, false, 65536, none, 57 + 16⟩ [(0, 4)]
    (by decide) (by decide) (by decide)

theorem readUI_append {w : Bool} {xs r : List Nat}
    (h : xs.length = if w then 4 else 8) :
    readUI w (xs ++ r) =
      some (if w then (leNat xs : Int) else toSigned 64 (leNat xs), r) := by
  cases w with
  | false =>
    have h8 : xs.length = 8 := by simpa using h
    simp [readUI, readI_append h8]
  | true =>
    have h4 : xs.length = 4 := by simpa using h
    simp [readUI, readU_append h4]

/-- C3: the compact-entry width contract.  For every flags word selecting
the compact form with a non-zero method, the decoder reads the body
offset as 32-bit exactly when flag bit 31 is set (else 64-bit signed),
the uncompressed size per bit 30, and the on-disk size per bit 29; the
decoded values are the little-endian value of exactly the chunk of the
selected width, in the fixed field order offset, uncompressed size,
on-disk size.  In particular bits 29=1, 30=0, 31=1 give a 32-bit offset,
a 64-bit uncompressed size and a 32-bit on-disk size. -/
theorem decode_entry_compact_width_contract (flags : Nat) (o u s tail : List Nat)
    (hflags : flags < 2 ^ 32)
    (hsent : flags &&& 0x3F ≠ 0x3F) (hnz : flags &&& 0x3F ≠ 0)
    (ho : o.length = if (flags &&& (1 <<< 31)) != 0 then 4 else 8)
    (hu : u.length = if (flags &&& (1 <<< 30)) != 0 then 4 else 8)
    (hs : s.length = if (flags &&& (1 <<< 29)) != 0 then 4 else 8)
    (htail : (flags >>> 7) &&& 0x7FF = 0 ∨ 4 ≤ tail.length) :
    ((decode_entry (encLE 4 flags ++ o ++ u ++ s ++ tail) 0).map fun e =>
        (e.full_entry, e.offset, e.uncompressed_size, e.size)) =
      some (false,
        (if (flags &&& (1 <<< 31)) != 0 then (leNat o : Int)
         else toSigned 64 (leNat o)),
        (if (flags &&& (1 <<< 30)) != 0 then (leNat u : Int)
         else toSigned 64 (leNat u)),
        (if (flags &&& (1 <<< 29)) != 0 then (leNat s : Int)
         else toSigned 64 (leNat s))) := by
  have h1 : readU 4 (encLE 4 flags ++ (o ++ (u ++ (s ++ tail)))) =
      some (flags, o ++ (u ++ (s ++ tail))) := by
    rw [readU_append (encLE_length 4 flags), leNat_encLE_of_lt hflags]
  have h2 := readUI_append (r := u ++ (s ++ tail)) ho
  have h3 := readUI_append (r := s ++ tail) hu
  have h4 := readUI_append (r := tail) hs
  by_cases hbc : (flags >>> 7) &&& 0x7FF = 0
  · unfold decode_entry decode_entry_core
    rw [if_neg (by decide : ¬((0 : Int) < 0))]
    simp only [Int.toNat_zero, List.drop_zero, List.append_assoc, h1, h2, h3, h4,
      if_neg hsent, if_pos hnz, hbc, Nat.lt_irrefl, and_false,
      if_false, Option.map_some]
    rfl
  · have htl : 4 ≤ tail.length := htail.resolve_left hbc
    have hpos : 0 < (flags >>> 7) &&& 0x7FF := Nat.pos_of_ne_zero hbc
    unfold decode_entry decode_entry_core
    rw [if_neg (by decide : ¬((0 : Int) < 0))]
    simp only [Int.toNat_zero, List.drop_zero, List.append_assoc, h1, h2, h3, h4,
      if_neg hsent, if_pos hnz, readU_of_le htl, Option.map_some]
    rw [if_pos ⟨hnz, hpos⟩]
    rfl

/-- C3 witness: a concrete flags word with bits 29 and 31 set, bit 30
clear and method index 1: the offset is decoded from a 4-byte chunk, the
uncompressed size from an 8-byte chunk, the on-disk size from a 4-byte
chunk. -/
theorem decode_entry_compact_width_contract_witness :
    ((decode_entry (encLE 4 (1 + 2 ^ 29 + 2 ^ 31) ++ [17, 0, 0, 0] ++
        [9, 0, 0, 0, 0, 0, 0, 0] ++ [3, 0, 0, 0] ++ []) 0).map fun e =>
        (e.full_entry, e.offset, e.uncompressed_size, e.size)) =
      some (false,
        (if (((1 + 2 ^ 29 + 2 ^ 31) &&& (1 <<< 31)) != 0)
         then (leNat [17, 0, 0, 0] : Int)
         else toSigned 64 (leNat [17, 0, 0, 0])),
        (if (((1 + 2 ^ 29 + 2 ^ 31) &&& (1 <<< 30)) != 0)
         then (leNat [9, 0, 0, 0, 0, 0, 0, 0] : Int)
         else toSigned 64 (leNat [9, 0, 0, 0, 0, 0, 0, 0])),
        (if (((1 + 2 ^ 29 + 2 ^ 31) &&& (1 <<< 29)) != 0)
         then (leNat [3, 0, 0, 0] : Int)
         else toSigned 64 (leNat [3, 0, 0, 0]))) :=
  decode_entry_compact_width_contract (1 + 2 ^ 29 + 2 ^ 31)
    [17, 0, 0, 0] [9, 0, 0, 0, 0, 0, 0, 0] [3, 0, 0, 0] []
    (by decide) (by decide) (by decide) (by decide) (by decide) (by decide)
    (Or.inl (by decide))

/-! ## String-codec lemmas -/

theorem utf8DecodeReplaceAux_ascii (fuel : Nat) (l : List Nat)
    (hf : l.length ≤ fuel) (h : ∀ b ∈ l, b ≤ 0x7F) :
    utf8DecodeReplaceAux fuel l = l := by
  induction fuel generalizing l with
  | zero =>
    cases l with
    | nil => rfl
    | cons a t => simp at hf
  | succ k ih =>
    cases l with
    | nil => rfl
    | cons a t =>
      have ha : a ≤ 0x7F := h a (by simp)
      simp only [utf8DecodeReplaceAux, if_pos ha]
      rw [ih t (by simpa using hf) (fun b hb => h b (by simp [hb]))]

theorem utf8DecodeReplace_ascii (l : List Nat) (h : ∀ b ∈ l, b ≤ 0x7F) :
    utf8DecodeReplace l = l :=
  utf8DecodeReplaceAux_ascii l.length l le_rfl h

theorem dropWhile_zero_of_ne (m : List Nat) (hm : ∀ b ∈ m, b ≠ 0) :
    m.dropWhile (fun b => b == 0) = m := by
  cases m with
  | nil => rfl
  | cons a t =>
    have : (a == 0) = false := by
      simpa using hm a (by simp)
    simp [List.dropWhile, this]

theorem rstripZeros_of_ne (l : List Nat) (h : ∀ b ∈ l, b ≠ 0) :
    rstripZeros l = l := by
  unfold rstripZeros
  rw [dropWhile_zero_of_ne l.reverse (by simpa using h)]
  simp

theorem rstripZeros_append_zero (l : List Nat) :
    rstripZeros (l ++ [0]) = rstripZeros l := by
  unfold rstripZeros
  simp [List.dropWhile]

theorem read_fstring_encFString (content rest : List Nat)
    (h7 : ∀ b ∈ content, 0 < b ∧ b < 128) (hlen : content.length + 1 < 2 ^ 31) :
    read_fstring (encFString content ++ rest) = some (content, rest) := by
  have hI : readI 4 (encLE 4 (content.length + 1) ++ ((content ++ [0]) ++ rest)) =
      some (((content.length + 1 : Nat) : Int), (content ++ [0]) ++ rest) :=
    readI_encLE (by simpa using hlen)
  have h0 : (((content.length + 1 : Nat) : Int)) ≠ 0 := by omega
  have hng : ¬(((content.length + 1 : Nat) : Int)) < 0 := by omega
  have hav : readAvail (content.length + 1) ((content ++ [0]) ++ rest) =
      (content ++ [0], rest) := readAvail_append (by simp)
  have hutf : utf8DecodeReplace (content ++ [0]) = content ++ [0] :=
    utf8DecodeReplace_ascii (content ++ [0])
      (by intro b hb
          rcases List.mem_append.mp hb with hb | hb
          · have := (h7 b hb).2
            omega
          · simp at hb
            omega)
  have hrs : rstripZeros (content ++ [0]) = content := by
    rw [rstripZeros_append_zero, rstripZeros_of_ne content
      (fun b hb => by have := (h7 b hb).1; omega)]
  simp only [List.append_assoc, List.singleton_append] at hI hav
  unfold read_fstring encFString
  rw [List.append_assoc]
  simp [hI, h0, hng, hav, hutf, hrs]
  split_ifs with hx hy
  · omega
  · omega
  · rfl


theorem utf16leBytes_length (units : List Nat) :
    (utf16leBytes units).length = 2 * units.length := by
  induction units with
  | nil => rfl
  | cons u rest ih =>
    show ([u % 256, u / 256] ++ utf16leBytes rest).length = 2 * (u :: rest).length
    rw [List.length_append, ih]
    simp
    omega

theorem utf16Units_utf16leBytes (units : List Nat) :
    utf16Units (utf16leBytes units) = some units := by
  induction units with
  | nil => rfl
  | cons u rest ih =>
    have hstep : utf16Units (utf16leBytes (u :: rest)) =
        (utf16Units (utf16leBytes rest)).map
          fun us => (u % 256 + 256 * (u / 256)) :: us := rfl
    rw [hstep, ih, Nat.mod_add_div]
    rfl

theorem utf16Combine_no_surrogate (units : List Nat)
    (h : ∀ u ∈ units, u < 0xD800) :
    utf16Combine units = some units := by
  induction units with
  | nil => rfl
  | cons u rest ih =>
    have hu : u < 0xD800 := h u (by simp)
    have hrec := ih fun v hv => h v (by simp [hv])
    unfold utf16Combine
    rw [if_pos (Or.inl hu), hrec]
    rfl

/-- `[2, 0, 0, 0, 0, 0]`: length prefix `L = 2`, payload two NUL bytes. -/
def doubleNulBuf : List Nat := [2, 0, 0, 0, 0, 0]

/-- C9 counterexample: with `L = 2` and a payload of two NUL bytes (the
trailing byte is a null terminator, each byte is single-byte text), the
decoded content is empty — length 0, not `L - 1 = 1` — because `rstrip`
removes every trailing NUL, not just one. -/
theorem read_fstring_strips_all_trailing_nulls :
    (read_fstring doubleNulBuf).map (fun p => p.1.length) = some 0 ∧
    (0 : Nat) ≠ 2 - 1 := by
  refine ⟨by decide, by decide⟩

/-- C9 (corrected form): the length-prefix convention as the code
implements it.  `L = 0` yields the empty string; `L > 0` reads `L` bytes
of single-byte text; `L < 0` reads `2 * (-L)` bytes of UTF-16 text; in
both text cases every trailing NUL is stripped, so for a payload with
exactly one trailing null terminator the content length is `L - 1`
(resp. `(-L) - 1` code units) — with more trailing NULs the content is
shorter (see the counterexample). -/
theorem read_fstring_convention_amended (content ucontent r0 r1 r2 : List Nat)
    (hc : ∀ b ∈ content, 0 < b ∧ b < 128) (hcl : content.length + 1 < 2 ^ 31)
    (hu : ∀ u ∈ ucontent, 0 < u ∧ u < 0xD800)
    (hul : ucontent.length + 1 ≤ 2 ^ 31) :
    read_fstring (encLE 4 0 ++ r0) = some ([], r0) ∧
    read_fstring (encFString content ++ r1) = some (content, r1) ∧
    read_fstring (encLE 4 (2 ^ 32 - (ucontent.length + 1)) ++
        (utf16leBytes (ucontent ++ [0]) ++ r2)) = some (ucontent, r2) := by
  refine ⟨?_, read_fstring_encFString content r1 hc hcl, ?_⟩
  · have hI : readI 4 (encLE 4 0 ++ r0) = some ((0 : Int), r0) :=
      readI_encLE (by norm_num)
    unfold read_fstring
    simp [hI]
  · have hval : leNat (encLE 4 (2 ^ 32 - (ucontent.length + 1))) =
        2 ^ 32 - (ucontent.length + 1) :=
      leNat_encLE_of_lt (by omega)
    have hcast : ((2 ^ 32 - (ucontent.length + 1) : Nat) : Int) =
        2 ^ 32 - ((ucontent.length : Int) + 1) := by
      omega
    have hL : toSigned 32 (2 ^ 32 - (ucontent.length + 1)) =
        -((ucontent.length : Int) + 1) := by
      unfold toSigned
      rw [if_neg (by omega), hcast]
      ring
    have hI : readI 4 (encLE 4 (2 ^ 32 - (ucontent.length + 1)) ++
        (utf16leBytes (ucontent ++ [0]) ++ r2)) =
        some (-((ucontent.length : Int) + 1),
          utf16leBytes (ucontent ++ [0]) ++ r2) := by
      rw [readI_append (encLE_length _ _), hval]
      show some (toSigned 32 _, _) = _
      rw [hL]
    have hav : readAvail ((ucontent.length + 1) * 2)
        (utf16leBytes (ucontent ++ [0]) ++ r2) =
        (utf16leBytes (ucontent ++ [0]), r2) :=
      readAvail_append (by rw [utf16leBytes_length]; simp; ring)
    have hdec16 : utf16leDecode (utf16leBytes (ucontent ++ [0])) =
        some (ucontent ++ [0]) := by
      unfold utf16leDecode
      rw [utf16Units_utf16leBytes, Option.some_bind]
      exact utf16Combine_no_surrogate _
        (by intro v hv
            rcases List.mem_append.mp hv with hv | hv
            · exact (hu v hv).2
            · simp at hv
              omega)
    have hrs : rstripZeros (ucontent ++ [0]) = ucontent := by
      rw [rstripZeros_append_zero, rstripZeros_of_ne ucontent
        (fun v hv => by have := (hu v hv).1; omega)]
    have hz : ¬(-((ucontent.length : Int) + 1)) = 0 := by omega
    have hlt : (-((ucontent.length : Int) + 1)) < 0 := by omega
    have hcnt : (-(-((ucontent.length : Int) + 1))).toNat = ucontent.length + 1 := by
      omega
    have hcnt2 : ((ucontent.length : Int) + 1).toNat = ucontent.length + 1 := by
      omega
    unfold read_fstring
    simp only [hI, if_neg hz, if_pos hlt, neg_neg, hcnt, hcnt2, hav, hdec16, hrs]

/-- C9 witness: the amended convention applied to a one-character ASCII
string, a one-unit UTF-16 string and the empty string. -/
theorem read_fstring_convention_amended_witness :
    read_fstring (encLE 4 0 ++ []) = some ([], []) ∧
    read_fstring (encFString [65] ++ []) = some ([65], []) ∧
    read_fstring (encLE 4 (2 ^ 32 - ([66].length + 1)) ++
        (utf16leBytes ([66] ++ [0]) ++ [])) = some ([66], []) :=
  read_fstring_convention_amended [65] [66] [] [] []
    (by decide) (by decide) (by decide) (by decide)

/-! ## Best-effort directory parsing (C7) -/

theorem parseDirFiles_encoded (files : List (List Nat × Nat)) (m : Nat)
    (dname : List Nat) (acc : List PakDirectoryEntry)
    (hf : ∀ p ∈ files, (∀ b ∈ p.1, 0 < b ∧ b < 128) ∧
          p.1.length + 1 < 2 ^ 31 ∧ p.2 < 2 ^ 31) :
    parseDirFiles dname (files.length + (m + 1)) (encDirFiles files) acc =
      (acc ++ files.map fun p => ⟨dname ++ p.1, (p.2 : Int)⟩, none) := by
  induction files generalizing acc with
  | nil =>
    show parseDirFiles dname (0 + (m + 1)) [] acc = (acc ++ [], none)
    rw [Nat.zero_add]
    show (match read_fstring [] with
          | none => (acc, none)
          | some (fname, s1) =>
            match readI 4 s1 with
            | none => (acc, none)
            | some (off, s2) =>
              parseDirFiles dname m s2 (acc ++ [⟨dname ++ fname, off⟩])) =
        (acc ++ [], none)
    rw [show read_fstring [] = none from rfl]
    simp
  | cons p fs ih =>
    obtain ⟨hp1, hp2, hp3⟩ := hf p (by simp)
    have hfs : ∀ q ∈ fs, (∀ b ∈ q.1, 0 < b ∧ b < 128) ∧
        q.1.length + 1 < 2 ^ 31 ∧ q.2 < 2 ^ 31 :=
      fun q hq => hf q (by simp [hq])
    have henc : encDirFiles (p :: fs) =
        encFString p.1 ++ (encLE 4 p.2 ++ encDirFiles fs) := by
      simp [encDirFiles]
    have hlen : (p :: fs).length + (m + 1) = (fs.length + (m + 1)) + 1 := by
      simp
      omega
    rw [henc, hlen]
    show (match read_fstring (encFString p.1 ++ (encLE 4 p.2 ++ encDirFiles fs)) with
          | none => (acc, none)
          | some (fname, s1) =>
            match readI 4 s1 with
            | none => (acc, none)
            | some (off, s2) =>
              parseDirFiles dname (fs.length + (m + 1)) s2
                (acc ++ [⟨dname ++ fname, off⟩])) =
        (acc ++ (p :: fs).map fun q => ⟨dname ++ q.1, (q.2 : Int)⟩, none)
    rw [read_fstring_encFString p.1 _ hp1 hp2]
    show (match readI 4 (encLE 4 p.2 ++ encDirFiles fs) with
          | none => (acc, none)
          | some (off, s2) =>
            parseDirFiles dname (fs.length + (m + 1)) s2
              (acc ++ [⟨dname ++ p.1, off⟩])) =
        (acc ++ (p :: fs).map fun q => ⟨dname ++ q.1, (q.2 : Int)⟩, none)
    rw [readI_encLE (by simpa using hp3)]
    show parseDirFiles dname (fs.length + (m + 1)) (encDirFiles fs)
        (acc ++ [⟨dname ++ p.1, (p.2 : Int)⟩]) =
      (acc ++ (p :: fs).map fun q => ⟨dname ++ q.1, (q.2 : Int)⟩, none)
    rw [ih _ hfs]
    simp

/-- C7: best-effort directory-tree decoding.  For every directory
sub-block that declares `dc + 1` directories and `N + m + 1` files in
its first directory but whose buffer ends after the first `N` complete
file records, the decoder does not raise: the structural read of the
`N + 1`-st file name fails mid-stream and `parse_full_directory` returns
exactly the `N` decoded `PakDirectoryEntry` values, each with path equal
to the directory name concatenated with the file name, in order. -/
theorem parse_full_directory_partial (dc m : Nat) (dname : List Nat)
    (files : List (List Nat × Nat))
    (hdc : dc + 1 < 2 ^ 31)
    (hd : ∀ b ∈ dname, 0 < b ∧ b < 128) (hdl : dname.length + 1 < 2 ^ 31)
    (hM : files.length + (m + 1) < 2 ^ 31)
    (hf : ∀ p ∈ files, (∀ b ∈ p.1, 0 < b ∧ b < 128) ∧
          p.1.length + 1 < 2 ^ 31 ∧ p.2 < 2 ^ 31) :
    parse_full_directory (encLE 4 (dc + 1) ++ (encFString dname ++
        (encLE 4 (files.length + (m + 1)) ++ encDirFiles files))) =
      files.map fun p => ⟨dname ++ p.1, (p.2 : Int)⟩ := by
  unfold parse_full_directory
  rw [readI_encLE (by simpa using hdc)]
  show (parseDirs ((dc : Int) + 1).toNat (encFString dname ++
      (encLE 4 (files.length + (m + 1)) ++ encDirFiles files)) []).1 = _
  have htn : ((dc : Int) + 1).toNat = dc + 1 := by omega
  rw [htn]
  show (match read_fstring (encFString dname ++
        (encLE 4 (files.length + (m + 1)) ++ encDirFiles files)) with
      | none => (([] : List PakDirectoryEntry), none)
      | some (dn, s1) =>
        match readI 4 s1 with
        | none => (([] : List PakDirectoryEntry), none)
        | some (fcount, s2) =>
          match parseDirFiles dn fcount.toNat s2 [] with
          | (acc2, none) => (acc2, none)
          | (acc2, some s3) => parseDirs dc s3 acc2).1 = _
  rw [read_fstring_encFString dname _ hd hdl]
  show (match readI 4 (encLE 4 (files.length + (m + 1)) ++ encDirFiles files) with
      | none => (([] : List PakDirectoryEntry), none)
      | some (fcount, s2) =>
        match parseDirFiles dname fcount.toNat s2 [] with
        | (acc2, none) => (acc2, none)
        | (acc2, some s3) => parseDirs dc s3 acc2).1 = _
  rw [readI_encLE (by simpa using hM)]
  show (match parseDirFiles dname ((files.length + (m + 1) : Nat) : Int).toNat
        (encDirFiles files) [] with
      | (acc2, none) => (acc2, none)
      | (acc2, some s3) => parseDirs dc s3 acc2).1 = _
  rw [show (((files.length + (m + 1) : Nat)) : Int).toNat =
    files.length + (m + 1) from by omega]
  rw [parseDirFiles_encoded files m dname [] hf]
  simp

/-- C7 witness: one directory `"A"` declaring two files, with only the
file `"B"` (offset 7) encoded before the buffer ends: the decoder
returns exactly that one entry with path `"AB"`. -/
theorem parse_full_directory_partial_witness :
    parse_full_directory (encLE 4 (0 + 1) ++ (encFString [65] ++
        (encLE 4 ([([66], 7)].length + (0 + 1)) ++ encDirFiles [([66], 7)]))) =
      [([66], 7)].map fun p => ⟨[65] ++ p.1, (p.2 : Int)⟩ :=
  parse_full_directory_partial 0 0 [65] [([66], 7)]
    (by decide) (by decide) (by decide) (by decide) (by decide)

/-! ## Bit-mask arithmetic and block-pair lemmas (C8) -/

theorem and63_eq_mod (x : Nat) : x &&& 63 = x % 64 := by
  have h := Nat.and_pow_two_sub_one_eq_mod x 6
  norm_num at h
  exact h

theorem and2047_eq_mod (x : Nat) : x &&& 2047 = x % 2048 := by
  have h := Nat.and_pow_two_sub_one_eq_mod x 11
  norm_num at h
  exact h

theorem shiftRight7_eq_div (x : Nat) : x >>> 7 = x / 128 := by
  rw [Nat.shiftRight_eq_div_pow]

theorem and_two_pow_eq_zero_of_lt {x k : Nat} (h : x < 2 ^ k) :
    x &&& 2 ^ k = 0 := by
  rw [Nat.and_two_pow, Nat.testBit_lt_two_pow h]
  simp

theorem and64_of_split (x e : Nat) (he : e ≤ 1)
    (h : x / 64 % 2 = e) : x &&& 64 = 64 * e := by
  have h2 : x &&& 2 ^ 6 = (x.testBit 6).toNat * 2 ^ 6 := Nat.and_two_pow x 6
  rw [Nat.testBit_to_div_mod] at h2
  norm_num at h2
  rw [h2, h]
  rcases Nat.le_one_iff_eq_zero_or_eq_one.mp he with he0 | he1
  · simp [he0]
  · simp [he1]

theorem readBlocks_encPairs (blocks : List (Nat × Nat)) (r : List Nat)
    (h : ∀ p ∈ blocks, p.1 < 2 ^ 63 ∧ p.2 < 2 ^ 63) :
    readBlocks blocks.length
        ((blocks.map fun p => encLE 8 p.1 ++ encLE 8 p.2).flatten ++ r) =
      some (blocks.map fun p => ((p.1 : Int), (p.2 : Int)), r) := by
  induction blocks with
  | nil => rfl
  | cons p ps ih =>
    obtain ⟨h1, h2⟩ := h p (by simp)
    have hps : ∀ q ∈ ps, q.1 < 2 ^ 63 ∧ q.2 < 2 ^ 63 :=
      fun q hq => h q (by simp [hq])
    show (match readI 8 (((encLE 8 p.1 ++ encLE 8 p.2) ++
          (ps.map fun q => encLE 8 q.1 ++ encLE 8 q.2).flatten) ++ r) with
        | none => none
        | some (bs, s1) =>
          match readI 8 s1 with
          | none => none
          | some (be, s2) =>
            match readBlocks ps.length s2 with
            | none => none
            | some (l, s3) => some ((bs, be) :: l, s3)) = _
    have hb1 : p.1 < 2 ^ (8 * 8 - 1) := by simpa using h1
    have hb2 : p.2 < 2 ^ (8 * 8 - 1) := by simpa using h2
    simp only [List.append_assoc, readI_encLE hb1, readI_encLE hb2, ih hps,
      List.map_cons]

theorem readUI_false (s : List Nat) : readUI false s = readI 8 s := rfl

theorem readU_one_cons (b : Nat) (r : List Nat) : readU 1 (b :: r) = some (b, r) := by
  simp [readU, readExact, leNat]

theorem decode_full_view (lf : LogicalFile)
    (hoff : lf.offset < 2 ^ 63) (hsz : lf.size < 2 ^ 63) (hun : lf.uncomp < 2 ^ 63)
    (hcomp : lf.comp < 63) (hbc : lf.blocks.length < 2 ^ 11)
    (hbsz : lf.block_size < 2 ^ 32)
    (hblocks : ∀ p ∈ lf.blocks, p.1 < 2 ^ 63 ∧ p.2 < 2 ^ 63) :
    (decode_entry (encodeFullEntry lf) 0).map DecodedEntry.view = some lf.view := by
  obtain ⟨o, sz, un, c, enc, bsz, bls⟩ := lf
  dsimp only at hoff hsz hun hcomp hbc hbsz hblocks ⊢
  have hbcN : bls.length < 2048 := by simpa using hbc
  have hF32 : 63 + 128 * bls.length < 2 ^ (8 * 4) := by norm_num; omega
  have hcond : (63 + 128 * bls.length) &&& 63 = 63 := by
    rw [and63_eq_mod]
    omega
  have hcnt : ((63 + 128 * bls.length) >>> 7) &&& 2047 = bls.length := by
    rw [shiftRight7_eq_div, and2047_eq_mod]
    omega
  have ho' : o < 2 ^ (8 * 8 - 1) := by simpa using hoff
  have hsz' : sz < 2 ^ (8 * 8 - 1) := by simpa using hsz
  have hun' : un < 2 ^ (8 * 8 - 1) := by simpa using hun
  have hc32 : c < 2 ^ (8 * 4) := by norm_num; omega
  have hbsz' : bsz < 2 ^ (8 * 4) := by simpa using hbsz
  have hRB := readBlocks_encPairs bls [] hblocks
  rw [List.append_nil] at hRB
  cases enc <;> by_cases hc0 : c = 0 <;>
    (unfold decode_entry decode_entry_core encodeFullEntry
     rw [if_neg (by decide : ¬((0 : Int) < 0))]
     simp [readU_encLE hF32, hcond, hcnt, readI_encLE ho', readI_encLE hsz',
       readI_encLE hun', readU_encLE hc32, readU_encLE hbsz', readAvail,
       readU_one_cons, hRB, DecodedEntry.view, LogicalFile.view]
     try simp [hc0, hRB, DecodedEntry.view, LogicalFile.view])

theorem readI_encLE_nil {n v : Nat} (h : v < 2 ^ (8 * n - 1)) :
    readI n (encLE n v) = some ((v : Int), []) := by
  have := readI_encLE (r := []) h
  simpa using this

theorem readU_encLE_nil {n v : Nat} (h : v < 2 ^ (8 * n)) :
    readU n (encLE n v) = some (v, []) := by
  have := readU_encLE (r := []) h
  simpa using this

theorem decode_compact_view (lf : LogicalFile)
    (hoff : lf.offset < 2 ^ 63) (hsz : lf.size < 2 ^ 63) (hun : lf.uncomp < 2 ^ 63)
    (hcomp : lf.comp < 63) (hbc : lf.blocks.length < 2 ^ 11)
    (hbsz : lf.block_size < 2 ^ 32)
    (hstore : lf.comp = 0 → lf.size = lf.uncomp ∧ lf.blocks = [])
    (hnoblk : lf.blocks = [] → lf.block_size = 0) :
    (decode_entry (encodeCompactEntry lf) 0).map DecodedEntry.view = some lf.view := by
  obtain ⟨o, sz, un, c, enc, bsz, bls⟩ := lf
  dsimp only at hoff hsz hun hcomp hbc hbsz hstore hnoblk ⊢
  have hbcN : bls.length < 2048 := by simpa using hbc
  have ho' : o < 2 ^ (8 * 8 - 1) := by simpa using hoff
  have hsz' : sz < 2 ^ (8 * 8 - 1) := by simpa using hsz
  have hun' : un < 2 ^ (8 * 8 - 1) := by simpa using hun
  have hbsz' : bsz < 2 ^ (8 * 4) := by simpa using hbsz
  cases enc with
  | true =>
    have hF32 : c + 64 + 128 * bls.length < 2 ^ (8 * 4) := by norm_num; omega
    have hA : (c + 64 + 128 * bls.length) &&& 63 = c := by
      rw [and63_eq_mod]
      omega
    have hne63 : c ≠ 63 := by omega
    have hBC : ((c + 64 + 128 * bls.length) >>> 7) &&& 2047 = bls.length := by
      rw [shiftRight7_eq_div, and2047_eq_mod]
      omega
    have h64 : (c + 64 + 128 * bls.length) &&& 64 = 64 := by
      have := and64_of_split (c + 64 + 128 * bls.length) 1 (by omega) (by omega)
      simpa using this
    have h31 : (c + 64 + 128 * bls.length) &&& 2147483648 = 0 := by
      rw [show (2147483648 : Nat) = 2 ^ 31 from by norm_num]
      exact and_two_pow_eq_zero_of_lt (by omega)
    have h30 : (c + 64 + 128 * bls.length) &&& 1073741824 = 0 := by
      rw [show (1073741824 : Nat) = 2 ^ 30 from by norm_num]
      exact and_two_pow_eq_zero_of_lt (by omega)
    have h29 : (c + 64 + 128 * bls.length) &&& 536870912 = 0 := by
      rw [show (536870912 : Nat) = 2 ^ 29 from by norm_num]
      exact and_two_pow_eq_zero_of_lt (by omega)
    by_cases hc0 : c = 0
    · obtain ⟨hse, hbe⟩ := hstore hc0
      have hb0 : bsz = 0 := hnoblk hbe
      unfold decode_entry decode_entry_core encodeCompactEntry
      rw [if_neg (by decide : ¬((0 : Int) < 0))]
      simp [hc0, hse, hbe, hb0,
        readU_encLE (show (64 : Nat) < 2 ^ (8 * 4) from by norm_num),
        (show ((64 : Nat) &&& 63) = 0 from by decide),
        (show (((64 : Nat) >>> 7) &&& 2047) = 0 from by decide),
        (show ((64 : Nat) &&& 64) = 64 from by decide),
        (show ((64 : Nat) &&& 2147483648) = 0 from by decide),
        (show ((64 : Nat) &&& 1073741824) = 0 from by decide),
        (show ((64 : Nat) &&& 536870912) = 0 from by decide),
        readUI, readI_encLE ho', readI_encLE_nil hun',
        DecodedEntry.view, LogicalFile.view]
    · by_cases hbe : bls = []
      · have hb0 : bsz = 0 := hnoblk hbe
        unfold decode_entry decode_entry_core encodeCompactEntry
        rw [if_neg (by decide : ¬((0 : Int) < 0))]
        simp only [hbe, List.length_nil, Nat.mul_zero, Nat.add_zero]
          at hA hBC h64 h31 h30 h29 hF32
        simp [hc0, hne63, hbe, hb0, readU_encLE hF32, hA, hBC, h64, h31, h30, h29,
          readUI, readI_encLE ho', readI_encLE hun', readI_encLE_nil hsz',
          DecodedEntry.view, LogicalFile.view]
      · have hlp : bls.length ≠ 0 := by simpa using hbe
        unfold decode_entry decode_entry_core encodeCompactEntry
        rw [if_neg (by decide : ¬((0 : Int) < 0))]
        simp [hc0, hne63, hlp, readU_encLE hF32, hA, hBC, h64, h31, h30, h29,
          readUI, readI_encLE ho', readI_encLE hun', readI_encLE hsz',
          readU_encLE hbsz', readAvail, Nat.pos_of_ne_zero hlp,
          DecodedEntry.view, LogicalFile.view]
  | false =>
    have hF32 : c + 128 * bls.length < 2 ^ (8 * 4) := by norm_num; omega
    have hA : (c + 128 * bls.length) &&& 63 = c := by
      rw [and63_eq_mod]
      omega
    have hne63 : c ≠ 63 := by omega
    have hBC : ((c + 128 * bls.length) >>> 7) &&& 2047 = bls.length := by
      rw [shiftRight7_eq_div, and2047_eq_mod]
      omega
    have h64 : (c + 128 * bls.length) &&& 64 = 0 := by
      have := and64_of_split (c + 128 * bls.length) 0 (by omega) (by omega)
      simpa using this
    have h31 : (c + 128 * bls.length) &&& 2147483648 = 0 := by
      rw [show (2147483648 : Nat) = 2 ^ 31 from by norm_num]
      exact and_two_pow_eq_zero_of_lt (by omega)
    have h30 : (c + 128 * bls.length) &&& 1073741824 = 0 := by
      rw [show (1073741824 : Nat) = 2 ^ 30 from by norm_num]
      exact and_two_pow_eq_zero_of_lt (by omega)
    have h29 : (c + 128 * bls.length) &&& 536870912 = 0 := by
      rw [show (536870912 : Nat) = 2 ^ 29 from by norm_num]
      exact and_two_pow_eq_zero_of_lt (by omega)
    by_cases hc0 : c = 0
    · obtain ⟨hse, hbe⟩ := hstore hc0
      have hb0 : bsz = 0 := hnoblk hbe
      unfold decode_entry decode_entry_core encodeCompactEntry
      rw [if_neg (by decide : ¬((0 : Int) < 0))]
      simp [hc0, hse, hbe, hb0,
        readU_encLE (show (0 : Nat) < 2 ^ (8 * 4) from by norm_num),
        (show ((0 : Nat) &&& 63) = 0 from by decide),
        (show (((0 : Nat) >>> 7) &&& 2047) = 0 from by decide),
        (show ((0 : Nat) &&& 64) = 0 from by decide),
        (show ((0 : Nat) &&& 2147483648) = 0 from by decide),
        (show ((0 : Nat) &&& 1073741824) = 0 from by decide),
        (show ((0 : Nat) &&& 536870912) = 0 from by decide),
        readUI, readI_encLE ho', readI_encLE_nil hun',
        DecodedEntry.view, LogicalFile.view]
    · by_cases hbe : bls = []
      · have hb0 : bsz = 0 := hnoblk hbe
        unfold decode_entry decode_entry_core encodeCompactEntry
        rw [if_neg (by decide : ¬((0 : Int) < 0))]
        simp only [hbe, List.length_nil, Nat.mul_zero, Nat.add_zero]
          at hA hBC h64 h31 h30 h29 hF32
        simp [hc0, hne63, hbe, hb0, readU_encLE hF32, hA, hBC, h64, h31, h30, h29,
          readUI, readI_encLE ho', readI_encLE hun', readI_encLE_nil hsz',
          DecodedEntry.view, LogicalFile.view]
      · have hlp : bls.length ≠ 0 := by simpa using hbe
        unfold decode_entry decode_entry_core encodeCompactEntry
        rw [if_neg (by decide : ¬((0 : Int) < 0))]
        simp [hc0, hne63, hlp, readU_encLE hF32, hA, hBC, h64, h31, h30, h29,
          readUI, readI_encLE ho', readI_encLE hun', readI_encLE hsz',
          readU_encLE hbsz', readAvail, Nat.pos_of_ne_zero hlp,
          DecodedEntry.view, LogicalFile.view]

/-- C8: round-trip agreement of the two record encodings.  For every
logical file (offset, sizes, method, encrypted flag, per-block chunk
size and block ranges, within the widths both encodings can carry, and
consistent for a store file: equal sizes, no blocks, no chunk size),
decoding the full-form record and the compact-form record constructed
for it yield the same normalized `DecodedEntry` view — body offset,
on-disk size, uncompressed size, compression-method index, encrypted
flag and per-block chunk size all agree, and equal the logical file's
own view. -/
theorem decode_entry_full_compact_same_view (lf : LogicalFile)
    (hoff : lf.offset < 2 ^ 63) (hsz : lf.size < 2 ^ 63) (hun : lf.uncomp < 2 ^ 63)
    (hcomp : lf.comp < 63) (hbc : lf.blocks.length < 2 ^ 11)
    (hbsz : lf.block_size < 2 ^ 32)
    (hblocks : ∀ p ∈ lf.blocks, p.1 < 2 ^ 63 ∧ p.2 < 2 ^ 63)
    (hstore : lf.comp = 0 → lf.size = lf.uncomp ∧ lf.blocks = [])
    (hnoblk : lf.blocks = [] → lf.block_size = 0) :
    (decode_entry (encodeFullEntry lf) 0).map DecodedEntry.view = some lf.view ∧
    (decode_entry (encodeCompactEntry lf) 0).map DecodedEntry.view = some lf.view :=
  ⟨decode_full_view lf hoff hsz hun hcomp hbc hbsz hblocks,
   decode_compact_view lf hoff hsz hun hcomp hbc hbsz hstore hnoblk⟩

/-- C8 witness: a concrete compressed logical file (method 1, encrypted,
one block range) decodes to the same view under both encodings. -/
theorem decode_entry_full_compact_same_view_witness :
    (decode_entry (encodeFullEntry ⟨10, 4, 8, 1, true, 65536, [(0, 4)]⟩) 0).map
        DecodedEntry.view = some (LogicalFile.view ⟨10, 4, 8, 1, true, 65536, [(0, 4)]⟩) ∧
    (decode_entry (encodeCompactEntry ⟨10, 4, 8, 1, true, 65536, [(0, 4)]⟩) 0).map
        DecodedEntry.view = some (LogicalFile.view ⟨10, 4, 8, 1, true, 65536, [(0, 4)]⟩) :=
  decode_entry_full_compact_same_view ⟨10, 4, 8, 1, true, 65536, [(0, 4)]⟩
    (by decide) (by decide) (by decide) (by decide) (by decide) (by decide)
    (by decide) (by decide) (by decide)
